import Mathlib

/-!
Verification of the secure extraction and recovery layer of `mlar`
(`src/mlar/src/main.rs`), as a shallow embedding in Lean 4.

Modelling conventions:
  * An absolute filesystem path is a `List String` of its normal components
    (the components after the root); `[]` is the filesystem root `/`.
  * Rust `Path` components are the inductive `Component` below; parsing an
    entry-name string into components (`Path::new(s).components()` on Unix)
    is `pathComponents`.
  * The real filesystem is abstracted by `FSModel`: whether a directory
    exists, whether `create_dir_all` succeeds, what `fs::canonicalize`
    returns (`none` = error), and whether `File::create` succeeds.
  * `glob::Pattern` (an external crate, assumed correct) is abstracted by
    its matching function `String → Bool`; compiling a pattern string is an
    abstract `String → Option (String → Bool)` parameter (`none` = invalid
    glob syntax).
  * A Rust `HashSet<String>` is modelled by the list of its elements, and a
    `HashMap` built by insertions by the association list in insertion
    order; only membership and emptiness are used by the code under study.
  * Fallible Rust code (`Result`) becomes `Except Unit`; a `panic!`/`expect`
    that aborts the process is also modelled as `.error ()` of the whole
    command.
  * Commands that perform I/O return, besides their `Except` outcome, a
    list of events recording the externally visible calls they made, in
    order.
-/

/-- Component of a path, as in Rust `std::path::Component`. The Windows
drive-prefix constructor is kept (as `PrefixComp`) so that the sanitizer
handles it, although Unix parsing never produces it. -/
inductive Component where
  | PrefixComp : Component
  | RootDir : Component
  | CurDir : Component
  | ParentDir : Component
  | Normal : String → Component
deriving DecidableEq, Repr

/-- Turn one non-empty, non-`"."` path part into a component. -/
def compOfPart (p : String) : Component :=
  if p = ".." then Component.ParentDir else Component.Normal p

/-- Split a character list on the `/` separator, keeping empty parts (the
behaviour of `str::split` on the separator). -/
def splitSlash : List Char → List (List Char)
  | [] => [[]]
  | c :: rest =>
    if c = '/' then [] :: splitSlash rest
    else
      match splitSlash rest with
      | [] => [[c]]
      | p :: ps => (c :: p) :: ps

/-- The non-empty slash-separated parts of a path string. -/
def pathParts (s : String) : List String :=
  ((splitSlash s.data).filter (fun p => p ≠ [])).map (fun l => String.mk l)

/-- Components of a path string, following Rust `Path::components()` on
Unix: a leading `/` yields `RootDir`; empty parts (from repeated or
trailing separators) are dropped; `"."` parts are dropped except as the
first component of a relative path, where `CurDir` is kept; `".."` parts
become `ParentDir`. -/
def pathComponents (s : String) : List Component :=
  match s.data with
  | '/' :: _ =>
    Component.RootDir :: ((pathParts s).filter (fun p => p ≠ ".")).map compOfPart
  | _ =>
    match pathParts s with
    | [] => []
    | p :: rest =>
      (if p = "." then [Component.CurDir] else [compOfPart p]) ++
        (rest.filter (fun p => p ≠ ".")).map compOfPart

/-- Loop of `get_extracted_path`: fold the components onto `output_dir`,
ignoring prefix, root and current-dir components, rejecting (`none`) on a
parent-dir component, and pushing normal components. -/
def buildDst (acc : List String) : List Component → Option (List String)
  | [] => some acc
  | Component.PrefixComp :: rest => buildDst acc rest
  | Component.RootDir :: rest => buildDst acc rest
  | Component.CurDir :: rest => buildDst acc rest
  | Component.ParentDir :: _ => none
  | Component.Normal p :: rest => buildDst (acc ++ [p]) rest

/-- Embedding of `get_extracted_path(output_dir, file_name)`: compute the
full destination path of an entry, skipping prefix, root and `.`
components and rejecting any name containing a `..` component. -/
def get_extracted_path (output_dir : List String) (file_name : String) :
    Option (List String) :=
  buildDst output_dir (pathComponents file_name)

/-- The normal components of a component list, in order. -/
def normalsOf (cs : List Component) : List String :=
  cs.filterMap (fun c =>
    match c with
    | Component.Normal p => some p
    | _ => none)

/-- Abstraction of the filesystem operations used by `create_file`. -/
structure FSModel where
  existsDir : List String → Bool
  mkdirOk : List String → Bool
  canon : List String → Option (List String)
  createOk : List String → Bool

/-- Rust `Path::parent()` on an absolute path: `none` at the root,
otherwise the path with the last component removed. -/
def pathParent : List String → Option (List String)
  | [] => none
  | l => some l.dropLast

/-- Embedding of `create_file(output_dir, fname)`. Returns `.ok none` when
the entry is skipped (unsafe name, no parent, or containing directory
canonicalizing outside the output directory), `.ok (some path)` with the
created file path on success, and `.error ()` when a filesystem operation
fails (directory creation, canonicalization, or file creation). -/
def create_file (fsys : FSModel) (output_dir : List String) (fname : String) :
    Except Unit (Option (List String)) :=
  match get_extracted_path output_dir fname with
  | none => Except.ok none
  | some extracted_path =>
    match pathParent extracted_path with
    | none => Except.ok none
    | some containing =>
      if !fsys.existsDir containing && !fsys.mkdirOk containing then
        Except.error ()
      else
        match fsys.canon containing with
        | none => Except.error ()
        | some ccont =>
          if output_dir.isPrefixOf ccont then
            if fsys.createOk extracted_path then
              Except.ok (some extracted_path)
            else Except.error ()
          else Except.ok none

/-- Embedding of `ExtractFileNameMatcher`. A compiled `glob::Pattern` is
abstracted by its matching function. -/
inductive ExtractFileNameMatcher where
  | Files : List String → ExtractFileNameMatcher
  | GlobPatterns : List (String → Bool) → ExtractFileNameMatcher
  | Anything : ExtractFileNameMatcher

/-- Embedding of `ExtractFileNameMatcher::match_file_name`. -/
def match_file_name (m : ExtractFileNameMatcher) (file_name : String) : Bool :=
  match m with
  | ExtractFileNameMatcher.Files files =>
    files.isEmpty || files.contains file_name
  | ExtractFileNameMatcher.GlobPatterns patterns =>
    patterns.isEmpty || patterns.any (fun pat => pat file_name)
  | ExtractFileNameMatcher.Anything => true

/-- Compile a list of pattern strings; `none` as soon as one is invalid,
modelling the `expect` panic in `from_matches`. -/
def compilePatterns (patternNew : String → Option (String → Bool)) :
    List String → Option (List (String → Bool))
  | [] => some []
  | p :: rest =>
    match patternNew p with
    | none => none
    | some g => (compilePatterns patternNew rest).map (fun l => g :: l)

/-- Embedding of `ExtractFileNameMatcher::from_matches`: `files = none`
means the `files` argument was absent. A `none` result models the panic on
an invalid glob pattern, which aborts the whole command. -/
def from_matches (files : Option (List String)) (globFlag : Bool)
    (patternNew : String → Option (String → Bool)) :
    Option ExtractFileNameMatcher :=
  match files with
  | none => some ExtractFileNameMatcher.Anything
  | some fs =>
    if globFlag then
      (compilePatterns patternNew fs).map ExtractFileNameMatcher.GlobPatterns
    else some (ExtractFileNameMatcher.Files fs)

/-- The `iter.sort()` of the tool: lexicographic sort of the entry names. -/
def sortNames (l : List String) : List String :=
  l.insertionSort (fun a b => a ≤ b)

/-- An archive entry, as `ArchiveFile`: name, size and its byte stream
(bytes as `List Nat`). -/
structure Entry where
  filename : String
  size : Nat
  data : List Nat
deriving DecidableEq

/-- Externally visible calls made by the `extract` command after its
setup, in order: per-name random-access lookups (`get_file`), entries
skipped after a failed lookup, the single `linear_extract` call with its
name-to-destination mapping, and completed writes. -/
inductive XEvent where
  | getFileCall : String → XEvent
  | skippedLookup : String → XEvent
  | linearCall : List (String × List String) → XEvent
  | wrote : String → List String → XEvent

/-- Environment of one `extract` run: the abstract filesystem, the
canonicalized output directory, the archive's entry names as enumerated by
`list_files` (no order guaranteed), the `get_file` lookup (`.error` = I/O
error, `.ok none` = indexed but missing), whether the `io::copy` of an
entry succeeds, the outcome of `linear_extract`, and whether opening the
archive and preparing the output directory succeed. -/
structure XEnv where
  fsys : FSModel
  out : List String
  names : List String
  lookup : String → Except Unit (Option Entry)
  copyOk : String → Bool
  linResult : Except Unit Unit
  openOk : Bool
  outdirOk : Bool

/-- Prepend an event to an event-trace-and-outcome pair. -/
def consEv {ε : Type} (e : ε) (p : List ε × Except Unit Unit) :
    List ε × Except Unit Unit :=
  (e :: p.1, p.2)

/-- Loop of the linear (`Anything`) branch of `extract`: build the
name-to-destination mapping by calling `create_file` on each sorted name,
skipping names for which it returns `none` and propagating its errors. -/
def buildMapping (fsys : FSModel) (out : List String) :
    List String → Except Unit (List (String × List String))
  | [] => Except.ok []
  | n :: rest =>
    match create_file fsys out n with
    | Except.error _ => Except.error ()
    | Except.ok none => buildMapping fsys out rest
    | Except.ok (some p) =>
      (buildMapping fsys out rest).map (fun m => (n, p) :: m)

/-- Loop of the filtered branch of `extract`: test each name against the
matcher, look matches up with `get_file` (skipping failed lookups with a
diagnostic), create the destination file and copy the data; `create_file`
and `io::copy` errors abort the command. -/
def extractLoop (env : XEnv) (m : ExtractFileNameMatcher) :
    List String → List XEvent × Except Unit Unit
  | [] => ([], Except.ok ())
  | n :: rest =>
    if match_file_name m n then
      match env.lookup n with
      | Except.error _ =>
        consEv (XEvent.getFileCall n) (consEv (XEvent.skippedLookup n)
          (extractLoop env m rest))
      | Except.ok none =>
        consEv (XEvent.getFileCall n) (consEv (XEvent.skippedLookup n)
          (extractLoop env m rest))
      | Except.ok (some _) =>
        match create_file env.fsys env.out n with
        | Except.error _ => ([XEvent.getFileCall n], Except.error ())
        | Except.ok none => consEv (XEvent.getFileCall n) (extractLoop env m rest)
        | Except.ok (some p) =>
          if env.copyOk n then
            consEv (XEvent.getFileCall n) (consEv (XEvent.wrote n p)
              (extractLoop env m rest))
          else ([XEvent.getFileCall n], Except.error ())
    else extractLoop env m rest

/-- Embedding of the body of `extract` after the archive has been opened
and the output directory prepared: in the `Anything` case, pre-compute all
destinations and hand the mapping to a single `linear_extract` call;
otherwise run the per-entry filtered loop on the sorted names. -/
def extract (m : ExtractFileNameMatcher) (env : XEnv) :
    List XEvent × Except Unit Unit :=
  match m with
  | ExtractFileNameMatcher.Anything =>
    match buildMapping env.fsys env.out (sortNames env.names) with
    | Except.error _ => ([], Except.error ())
    | Except.ok mapping => ([XEvent.linearCall mapping], env.linResult)
  | _ => extractLoop env m (sortNames env.names)

/-- Events of the whole `extract` command, including its setup I/O. -/
inductive CmdEvent where
  | ioOpenArchive : CmdEvent
  | ioPrepOutDir : CmdEvent
  | sub : XEvent → CmdEvent

/-- Embedding of the `extract` command from its first statement: the
matcher is built first (panicking on an invalid glob pattern, before any
I/O); then the archive is opened, the output directory created and
canonicalized, and the extraction body runs. -/
def extractCmd (files : Option (List String)) (globFlag : Bool)
    (patternNew : String → Option (String → Bool)) (env : XEnv) :
    List CmdEvent × Except Unit Unit :=
  match from_matches files globFlag patternNew with
  | none => ([], Except.error ())
  | some m =>
    if env.openOk then
      if env.outdirOk then
        ((CmdEvent.ioOpenArchive :: CmdEvent.ioPrepOutDir ::
          (extract m env).1.map CmdEvent.sub), (extract m env).2)
      else ([CmdEvent.ioOpenArchive, CmdEvent.ioPrepOutDir], Except.error ())
    else ([CmdEvent.ioOpenArchive], Except.error ())

/-- The file tree produced by the linear extraction path, as an
association of destination paths to entry bytes: each mapping pair
receives exactly the bytes of its entry, in mapping order. -/
def extractTree (fsys : FSModel) (out : List String) (names : List String)
    (content : String → List Nat) :
    Except Unit (List (List String × List Nat)) :=
  (buildMapping fsys out (sortNames names)).map
    (List.map (fun np => (np.2, content np.1)))

/-- Externally visible calls of the `convert` command: entries added to
the output writer, entries skipped after a failed lookup, and the final
`finalize` call on the writer. -/
inductive CEvent where
  | added : Entry → CEvent
  | skipped : String → CEvent
  | finalizeCall : CEvent
deriving DecidableEq

/-- Environment of one `convert` run: the source archive's entry names,
the `get_file` lookup, whether `add_file` on the output writer succeeds
for an entry, and whether the final `finalize` succeeds. -/
structure CEnv where
  names : List String
  lookup : String → Except Unit (Option Entry)
  addOk : Entry → Bool
  finalizeOk : Bool

/-- Loop of `convert`: for each sorted name, look the entry up — an
`Err` or a missing entry is reported and skipped — and stream it into the
output writer with `add_file`, whose failure aborts the command. -/
def convertLoop (env : CEnv) : List String → List CEvent × Except Unit Unit
  | [] => ([], Except.ok ())
  | n :: rest =>
    match env.lookup n with
    | Except.error _ => consEv (CEvent.skipped n) (convertLoop env rest)
    | Except.ok none => consEv (CEvent.skipped n) (convertLoop env rest)
    | Except.ok (some e) =>
      if env.addOk e then consEv (CEvent.added e) (convertLoop env rest)
      else ([], Except.error ())

/-- Embedding of the `convert` command after both archives are open: run
the per-entry loop over the sorted names, then call `finalize` exactly
once; `finalize` failure (the `expect` panic) is fatal. If the loop itself
aborted, `finalize` is never reached. -/
def convert (env : CEnv) : List CEvent × Except Unit Unit :=
  match convertLoop env (sortNames env.names) with
  | (evs, Except.error _) => (evs, Except.error ())
  | (evs, Except.ok _) =>
    (evs ++ [CEvent.finalizeCall],
      if env.finalizeOk then Except.ok () else Except.error ())

/-- Embedding of `FailSafeReadError`, the terminal status of the
fail-safe conversion: no error, the clean end of the original archive's
data, or any other (residual) error class, abstracted by a code. -/
inductive FailSafeReadError where
  | NoError : FailSafeReadError
  | EndOfOriginalArchiveData : FailSafeReadError
  | OtherError : Nat → FailSafeReadError
deriving DecidableEq

/-- Diagnostic that `repair` prints for a terminal status: nothing for
`NoError`, the whole-archive-recovered warning for
`EndOfOriginalArchiveData`, and the generic conversion-ended warning
carrying the status otherwise. -/
inductive RepairReport where
  | silent : RepairReport
  | wholeRecovered : RepairReport
  | endedWith : FailSafeReadError → RepairReport
deriving DecidableEq

/-- The `match status` at the end of `repair`. -/
def repairDiag (status : FailSafeReadError) : RepairReport :=
  match status with
  | FailSafeReadError.NoError => RepairReport.silent
  | FailSafeReadError.EndOfOriginalArchiveData => RepairReport.wholeRecovered
  | s => RepairReport.endedWith s

/-- Embedding of the `repair` command after both archives are open, as a
function of the result of `convert_to_archive`: an `Err` propagates (the
`?`), while any terminal status yields the matching diagnostic and the
command succeeds. -/
def repair (conv : Except Unit FailSafeReadError) :
    Except Unit RepairReport :=
  match conv with
  | Except.error _ => Except.error ()
  | Except.ok status => Except.ok (repairDiag status)

/-- Externally visible calls of the glob branch of the `cat` command: an
invalid pattern reported and skipped, an entry skipped after a failed
lookup, and an entry's bytes copied to the destination. -/
inductive CatEvent where
  | invalidPattern : String → CatEvent
  | skippedEntry : String → CatEvent
  | wrote : String → CatEvent
deriving DecidableEq

/-- Environment of one `cat` run: the archive's entry names, the
`get_file` lookup, and whether the `io::copy` to the destination succeeds
for an entry. -/
structure CatEnv where
  names : List String
  lookup : String → Except Unit (Option Entry)
  copyOk : String → Bool

/-- Inner loop of the glob branch of `cat`: for one compiled pattern,
scan the sorted archive names, and for each match look the entry up
(failed lookups are reported and skipped) and copy its bytes; a copy
failure aborts the command. -/
def catMatches (env : CatEnv) (g : String → Bool) :
    List String → List CatEvent × Except Unit Unit
  | [] => ([], Except.ok ())
  | n :: rest =>
    if g n then
      match env.lookup n with
      | Except.error _ => consEv (CatEvent.skippedEntry n) (catMatches env g rest)
      | Except.ok none => consEv (CatEvent.skippedEntry n) (catMatches env g rest)
      | Except.ok (some _) =>
        if env.copyOk n then consEv (CatEvent.wrote n) (catMatches env g rest)
        else ([], Except.error ())
    else catMatches env g rest

/-- Embedding of the glob branch of `cat`: for each supplied pattern
string, an invalid pattern is reported and skipped (the command
continues with the remaining patterns); a valid one is run over the
sorted archive names. -/
def catGlob (patternNew : String → Option (String → Bool)) (env : CatEnv) :
    List String → List CatEvent × Except Unit Unit
  | [] => ([], Except.ok ())
  | p :: rest =>
    match patternNew p with
    | none => consEv (CatEvent.invalidPattern p) (catGlob patternNew env rest)
    | some g =>
      match catMatches env g (sortNames env.names) with
      | (evs, Except.error _) => (evs, Except.error ())
      | (evs, Except.ok _) =>
        ((evs ++ (catGlob patternNew env rest).1),
          (catGlob patternNew env rest).2)

/-- The names passed to `get_file` during an extraction, in call order. -/
def getCalls (evs : List XEvent) : List String :=
  evs.filterMap (fun e =>
    match e with
    | XEvent.getFileCall n => some n
    | _ => none)

/-- Classification of a terminal fail-safe status into its three classes:
no error, clean end of the original archive data, residual error. -/
def statusClass (s : FailSafeReadError) : Nat :=
  match s with
  | FailSafeReadError.NoError => 0
  | FailSafeReadError.EndOfOriginalArchiveData => 1
  | FailSafeReadError.OtherError _ => 2

/-- A fully permissive concrete filesystem: every directory exists, every
operation succeeds, and canonicalization is the identity (no symlinks). -/
def fsA : FSModel :=
  { existsDir := fun _ => true
    mkdirOk := fun _ => true
    canon := fun l => some l
    createOk := fun _ => true }

/-- A concrete one-entry extraction environment whose lookups all report
the entry as indexed but missing. -/
def xenv₁ : XEnv :=
  { fsys := fsA
    out := ["r"]
    names := ["a"]
    lookup := fun _ => Except.ok none
    copyOk := fun _ => true
    linResult := Except.ok ()
    openOk := true
    outdirOk := true }

/-- A concrete one-entry conversion environment whose lookups all fail. -/
def cenv₀ : CEnv :=
  { names := ["a"]
    lookup := fun _ => Except.error ()
    addOk := fun _ => true
    finalizeOk := true }

/-- A concrete one-entry `cat` environment. -/
def catenv₀ : CatEnv :=
  { names := ["a"]
    lookup := fun _ => Except.ok none
    copyOk := fun _ => true }

theorem buildDst_eq_none_iff (cs : List Component) :
    ∀ acc, buildDst acc cs = none ↔ Component.ParentDir ∈ cs := by
  induction cs with
  | nil => intro acc; simp [buildDst]
  | cons c rest ih =>
    intro acc
    cases c with
    | PrefixComp => simp [buildDst, ih]
    | RootDir => simp [buildDst, ih]
    | CurDir => simp [buildDst, ih]
    | ParentDir => simp [buildDst]
    | Normal p => simp [buildDst, ih]

theorem buildDst_eq_append (cs : List Component) :
    ∀ acc, Component.ParentDir ∉ cs →
      buildDst acc cs = some (acc ++ normalsOf cs) := by
  induction cs with
  | nil => intro acc _; simp [buildDst, normalsOf]
  | cons c rest ih =>
    intro acc h
    have hrest : Component.ParentDir ∉ rest := fun hr => h (List.mem_cons_of_mem _ hr)
    cases c with
    | PrefixComp => simp [buildDst, normalsOf, ih _ hrest]
    | RootDir => simp [buildDst, normalsOf, ih _ hrest]
    | CurDir => simp [buildDst, normalsOf, ih _ hrest]
    | ParentDir => exact absurd (List.mem_cons_self Component.ParentDir rest) h
    | Normal p => simp [buildDst, normalsOf, ih _ hrest]

/-- C2: `get_extracted_path` returns `none` exactly when the entry name
contains a parent-directory component; otherwise it returns the output
directory extended by exactly the name's normal components in order (all
root, prefix and current-directory components dropped), so `"/etc/passwd"`
maps to `<root>/etc/passwd`. -/
theorem get_extracted_path_spec (out : List String) (name : String) :
    (get_extracted_path out name = none ↔
      Component.ParentDir ∈ pathComponents name) ∧
    (Component.ParentDir ∉ pathComponents name →
      get_extracted_path out name = some (out ++ normalsOf (pathComponents name))) :=
  ⟨buildDst_eq_none_iff (pathComponents name) out,
    fun h => buildDst_eq_append (pathComponents name) out h⟩

/-- Witness for C2 at the output root `["r"]` and the absolute entry name
`"/etc/passwd"`. -/
theorem get_extracted_path_spec_witness :
    Component.ParentDir ∉ pathComponents "/etc/passwd" ∧
    get_extracted_path ["r"] "/etc/passwd" =
      some (["r"] ++ normalsOf (pathComponents "/etc/passwd")) ∧
    get_extracted_path ["r"] "/etc/passwd" = some ["r", "etc", "passwd"] ∧
    get_extracted_path ["r"] "a/../b" = none :=
  ⟨by decide, (get_extracted_path_spec ["r"] "/etc/passwd").2 (by decide),
    by decide, by decide⟩

/-- C3: `match_file_name` is always true for `Anything`; for `Files set`
it is true exactly when the set is empty or contains the name; for
`GlobPatterns list` exactly when the list is empty or some pattern matches
the name; and `Files set-with-a` matches only the name `"a"`. -/
theorem match_file_name_spec :
    (∀ name, match_file_name ExtractFileNameMatcher.Anything name = true) ∧
    (∀ files name,
      match_file_name (ExtractFileNameMatcher.Files files) name = true ↔
        (files = [] ∨ name ∈ files)) ∧
    (∀ pats name,
      match_file_name (ExtractFileNameMatcher.GlobPatterns pats) name = true ↔
        (pats = [] ∨ ∃ p ∈ pats, p name = true)) ∧
    (∀ name,
      match_file_name (ExtractFileNameMatcher.Files ["a"]) name = true ↔
        name = "a") := by
  refine ⟨fun name => rfl, fun files name => ?_, fun pats name => ?_, fun name => ?_⟩
  · simp [match_file_name, List.isEmpty_iff, List.elem_iff]
  · simp [match_file_name, List.isEmpty_iff, List.any_eq_true]
  · simp [match_file_name, List.elem_iff]

/-- Witness for C3: `Files set-with-a` matches `"a"` and not `"b"`, the
empty explicit set matches anything, and so does `Anything`. -/
theorem match_file_name_spec_witness :
    match_file_name (ExtractFileNameMatcher.Files ["a"]) "a" = true ∧
    ¬ match_file_name (ExtractFileNameMatcher.Files ["a"]) "b" = true ∧
    match_file_name (ExtractFileNameMatcher.Files []) "b" = true ∧
    match_file_name ExtractFileNameMatcher.Anything "b" = true :=
  ⟨(match_file_name_spec.2.2.2 "a").mpr rfl,
    fun h => by simpa using (match_file_name_spec.2.2.2 "b").mp h,
    (match_file_name_spec.2.1 [] "b").mpr (Or.inl rfl),
    match_file_name_spec.1 "b"⟩



theorem create_file_ok_some (fsys : FSModel) (out : List String)
    (fname : String) (p : List String)
    (h : create_file fsys out fname = Except.ok (some p)) :
    get_extracted_path out fname = some p ∧
    ∃ c, pathParent p = some c ∧
      ∃ cc, fsys.canon c = some cc ∧ List.isPrefixOf out cc = true := by
  unfold create_file at h
  split at h
  · simp at h
  · rename_i ep hg
    split at h
    · simp at h
    · rename_i c hpar
      split at h
      · simp at h
      · rename_i hdir
        split at h
        · simp at h
        · rename_i cc hcanon
          split at h
          · rename_i hpre
            split at h
            · simp only [Except.ok.injEq, Option.some.injEq] at h
              subst h
              exact ⟨hg, c, hpar, cc, hcanon, hpre⟩
            · simp at h
          · simp at h

theorem consEv_fst {ε : Type} (e : ε) (p : List ε × Except Unit Unit) :
    (consEv e p).1 = e :: p.1 := rfl

theorem consEv_snd {ε : Type} (e : ε) (p : List ε × Except Unit Unit) :
    (consEv e p).2 = p.2 := rfl

theorem buildMapping_mem (fsys : FSModel) (out : List String) :
    ∀ (l : List String) (mp : List (String × List String)),
      buildMapping fsys out l = Except.ok mp →
      ∀ n p, (n, p) ∈ mp → create_file fsys out n = Except.ok (some p) := by
  intro l
  induction l with
  | nil =>
    intro mp h n p hmem
    unfold buildMapping at h
    injection h with h
    subst h
    simp at hmem
  | cons hd tl ih =>
    intro mp h n p hmem
    unfold buildMapping at h
    split at h
    · simp at h
    · exact ih mp h n p hmem
    · rename_i q hq
      cases htl : buildMapping fsys out tl with
      | error e => rw [htl] at h; simp [Except.map] at h
      | ok m₂ =>
        rw [htl] at h
        simp only [Except.map, Except.ok.injEq] at h
        subst h
        rw [List.mem_cons] at hmem
        rcases hmem with heq | hmem₂
        · injection heq with h₁ h₂
          subst h₁; subst h₂
          exact hq
        · exact ih m₂ htl n p hmem₂

theorem extractLoop_wrote_mem (env : XEnv) (m : ExtractFileNameMatcher) :
    ∀ (l : List String) (n : String) (p : List String),
      XEvent.wrote n p ∈ (extractLoop env m l).1 →
      create_file env.fsys env.out n = Except.ok (some p) := by
  intro l
  induction l with
  | nil => intro n p h; simp [extractLoop] at h
  | cons hd tl ih =>
    intro n p h
    unfold extractLoop at h
    split at h
    · split at h
      · rw [consEv_fst, consEv_fst, List.mem_cons, List.mem_cons] at h
        rcases h with h | h | h
        · exact XEvent.noConfusion h
        · exact XEvent.noConfusion h
        · exact ih n p h
      · rw [consEv_fst, consEv_fst, List.mem_cons, List.mem_cons] at h
        rcases h with h | h | h
        · exact XEvent.noConfusion h
        · exact XEvent.noConfusion h
        · exact ih n p h
      · split at h
        · simp at h
        · rw [consEv_fst, List.mem_cons] at h
          rcases h with h | h
          · exact XEvent.noConfusion h
          · exact ih n p h
        · rename_i q hq
          split at h
          · rw [consEv_fst, consEv_fst, List.mem_cons, List.mem_cons] at h
            rcases h with h | h | h
            · exact XEvent.noConfusion h
            · injection h with h₁ h₂
              subst h₁; subst h₂
              exact hq
            · exact ih n p h
          · simp at h
    · exact ih n p h

theorem extractLoop_no_linear (env : XEnv) (m : ExtractFileNameMatcher) :
    ∀ (l : List String) (mp : List (String × List String)),
      XEvent.linearCall mp ∉ (extractLoop env m l).1 := by
  intro l
  induction l with
  | nil => intro mp h; simp [extractLoop] at h
  | cons hd tl ih =>
    intro mp h
    unfold extractLoop at h
    split at h
    · split at h
      · rw [consEv_fst, consEv_fst, List.mem_cons, List.mem_cons] at h
        rcases h with h | h | h
        · exact XEvent.noConfusion h
        · exact XEvent.noConfusion h
        · exact ih mp h
      · rw [consEv_fst, consEv_fst, List.mem_cons, List.mem_cons] at h
        rcases h with h | h | h
        · exact XEvent.noConfusion h
        · exact XEvent.noConfusion h
        · exact ih mp h
      · split at h
        · simp at h
        · rw [consEv_fst, List.mem_cons] at h
          rcases h with h | h
          · exact XEvent.noConfusion h
          · exact ih mp h
        · split at h
          · rw [consEv_fst, consEv_fst, List.mem_cons, List.mem_cons] at h
            rcases h with h | h | h
            · exact XEvent.noConfusion h
            · exact XEvent.noConfusion h
            · exact ih mp h
          · simp at h
    · exact ih mp h

theorem isPrefixOf_dropLast_eq_false (a : String) (as : List String) :
    List.isPrefixOf (a :: as) ((a :: as).dropLast) = false := by
  cases hb : List.isPrefixOf (a :: as) ((a :: as).dropLast) with
  | false => rfl
  | true =>
    have hpre : (a :: as) <+: (a :: as).dropLast :=
      (List.isPrefixOf_iff_prefix).mp hb
    have hlen := hpre.length_le
    rw [List.length_dropLast] at hlen
    simp at hlen

/-- C1: `create_file` returns a file handle only when the canonicalized
containing directory of the assembled destination path has the output
directory as a path prefix; when the canonical containing directory is not
inside the output root it returns `Ok(None)` (the entry is skipped and the
command continues); hence every file written during extraction — in the
filtered loop or through the linear-extraction mapping — has its canonical
parent directory inside (or equal to) the output root. -/
theorem create_file_containment (fsys : FSModel) (out : List String) :
    (∀ fname p, create_file fsys out fname = Except.ok (some p) →
      get_extracted_path out fname = some p ∧
      ∃ c, pathParent p = some c ∧
        ∃ cc, fsys.canon c = some cc ∧ List.isPrefixOf out cc = true) ∧
    (∀ fname p c cc, get_extracted_path out fname = some p →
      pathParent p = some c →
      (fsys.existsDir c || fsys.mkdirOk c) = true →
      fsys.canon c = some cc →
      List.isPrefixOf out cc = false →
      create_file fsys out fname = Except.ok none) ∧
    (∀ (env : XEnv) (m : ExtractFileNameMatcher) (n : String) (p : List String),
      XEvent.wrote n p ∈ (extract m env).1 →
      ∃ c, pathParent p = some c ∧
        ∃ cc, env.fsys.canon c = some cc ∧ List.isPrefixOf env.out cc = true) ∧
    (∀ (env : XEnv) (m : ExtractFileNameMatcher)
      (mp : List (String × List String)) (n : String) (p : List String),
      XEvent.linearCall mp ∈ (extract m env).1 → (n, p) ∈ mp →
      ∃ c, pathParent p = some c ∧
        ∃ cc, env.fsys.canon c = some cc ∧ List.isPrefixOf env.out cc = true) := by
  refine ⟨fun fname p h => create_file_ok_some fsys out fname p h,
    fun fname p c cc hg hpar hdir hcanon hpre => ?_,
    fun env m n p h => ?_, fun env m mp n p h hmem => ?_⟩
  · have hcond : (!fsys.existsDir c && !fsys.mkdirOk c) = false := by
      revert hdir
      cases fsys.existsDir c <;> cases fsys.mkdirOk c <;> simp
    unfold create_file
    simp [hg, hpar, hcond, hcanon, hpre]
  · cases m with
    | Files fs =>
      have hcf := extractLoop_wrote_mem env (ExtractFileNameMatcher.Files fs)
        (sortNames env.names) n p h
      obtain ⟨_, c, hpar, cc, hcanon, hpre⟩ :=
        create_file_ok_some env.fsys env.out n p hcf
      exact ⟨c, hpar, cc, hcanon, hpre⟩
    | GlobPatterns pats =>
      have hcf := extractLoop_wrote_mem env (ExtractFileNameMatcher.GlobPatterns pats)
        (sortNames env.names) n p h
      obtain ⟨_, c, hpar, cc, hcanon, hpre⟩ :=
        create_file_ok_some env.fsys env.out n p hcf
      exact ⟨c, hpar, cc, hcanon, hpre⟩
    | Anything =>
      unfold extract at h
      cases hb : buildMapping env.fsys env.out (sortNames env.names) with
      | error e => rw [hb] at h; simp at h
      | ok mp₂ => rw [hb] at h; simp at h
  · cases m with
    | Files fs =>
      exact absurd h (extractLoop_no_linear env (ExtractFileNameMatcher.Files fs)
        (sortNames env.names) mp)
    | GlobPatterns pats =>
      exact absurd h (extractLoop_no_linear env
        (ExtractFileNameMatcher.GlobPatterns pats) (sortNames env.names) mp)
    | Anything =>
      unfold extract at h
      cases hb : buildMapping env.fsys env.out (sortNames env.names) with
      | error e => rw [hb] at h; simp at h
      | ok mp₂ =>
        rw [hb] at h
        simp at h
        have hb₂ : buildMapping env.fsys env.out (sortNames env.names) =
            Except.ok mp := by rw [hb, h]
        have hcf := buildMapping_mem env.fsys env.out (sortNames env.names)
          mp hb₂ n p hmem
        obtain ⟨_, c, hpar, cc, hcanon, hpre⟩ :=
          create_file_ok_some env.fsys env.out n p hcf
        exact ⟨c, hpar, cc, hcanon, hpre⟩

/-- Witness for C1: with an identity-canonicalizing filesystem, output
root `["r"]` and entry `"a/b"`, `create_file` succeeds and the theorem
yields the containment of the canonical parent `["r", "a"]`. -/
theorem create_file_containment_witness :
    get_extracted_path ["r"] "a/b" = some ["r", "a", "b"] ∧
    ∃ c, pathParent ["r", "a", "b"] = some c ∧
      ∃ cc, fsA.canon c = some cc ∧ List.isPrefixOf ["r"] cc = true :=
  (create_file_containment fsA ["r"]).1 "a/b" ["r", "a", "b"] rfl

/-- C10: for an entry name all of whose components are root, prefix or
current-directory components, `get_extracted_path` returns the output root
itself, and `create_file` then returns `Ok(None)` — the canonicalized
parent of the output root (assumed already canonical, as `extract`
canonicalizes it, and reachable for directory creation) is a strict
ancestor of the root and so never has it as a prefix — hence no file is
created and the command continues. -/
theorem trivial_name_skipped (fsys : FSModel) (out : List String) (name : String)
    (hcomp : ∀ c ∈ pathComponents name,
      c = Component.PrefixComp ∨ c = Component.RootDir ∨ c = Component.CurDir)
    (hfs : fsys.canon out.dropLast = some out.dropLast ∧
      (fsys.existsDir out.dropLast || fsys.mkdirOk out.dropLast) = true) :
    get_extracted_path out name = some out ∧
    create_file fsys out name = Except.ok none := by
  have hnp : Component.ParentDir ∉ pathComponents name := by
    intro hmem
    rcases hcomp _ hmem with h | h | h <;> exact Component.noConfusion h
  have hnorm : normalsOf (pathComponents name) = [] := by
    unfold normalsOf
    rw [List.filterMap_eq_nil_iff]
    intro c hc
    rcases hcomp c hc with h | h | h <;> subst h <;> rfl
  have hget : get_extracted_path out name = some out := by
    unfold get_extracted_path
    rw [buildDst_eq_append (pathComponents name) out hnp, hnorm, List.append_nil]
  refine ⟨hget, ?_⟩
  obtain ⟨hc, he⟩ := hfs
  cases out with
  | nil =>
    unfold create_file
    rw [hget]
    rfl
  | cons a as =>
    have hcond : (!fsys.existsDir ((a :: as).dropLast) &&
        !fsys.mkdirOk ((a :: as).dropLast)) = false := by
      revert he
      cases fsys.existsDir ((a :: as).dropLast) <;>
        cases fsys.mkdirOk ((a :: as).dropLast) <;> simp
    have hpar : pathParent (a :: as) = some ((a :: as).dropLast) := rfl
    unfold create_file
    simp [hget, hpar, hcond, hc, isPrefixOf_dropLast_eq_false]

/-- Witness for C10 at the output root `["r"]` and the entry name `"/."`
(only root and current-directory components). -/
theorem trivial_name_skipped_witness :
    get_extracted_path ["r"] "/." = some ["r"] ∧
    create_file fsA ["r"] "/." = Except.ok none :=
  trivial_name_skipped fsA ["r"] "/." (by decide) ⟨rfl, rfl⟩

theorem convertLoop_no_finalize (env : CEnv) :
    ∀ l : List String, CEvent.finalizeCall ∉ (convertLoop env l).1 := by
  intro l
  induction l with
  | nil => intro h; simp [convertLoop] at h
  | cons hd tl ih =>
    intro h
    unfold convertLoop at h
    split at h
    · rw [consEv_fst, List.mem_cons] at h
      rcases h with h | h
      · exact CEvent.noConfusion h
      · exact ih h
    · rw [consEv_fst, List.mem_cons] at h
      rcases h with h | h
      · exact CEvent.noConfusion h
      · exact ih h
    · split at h
      · rw [consEv_fst, List.mem_cons] at h
        rcases h with h | h
        · exact CEvent.noConfusion h
        · exact ih h
      · simp at h

theorem convertLoop_ok (env : CEnv) (hadd : ∀ e, env.addOk e = true) :
    ∀ l : List String, (convertLoop env l).2 = Except.ok () := by
  intro l
  induction l with
  | nil => rfl
  | cons hd tl ih =>
    unfold convertLoop
    split
    · rw [consEv_snd]; exact ih
    · rw [consEv_snd]; exact ih
    · rename_i e he
      split
      · rw [consEv_snd]; exact ih
      · rename_i hfalse
        rw [hadd e] at hfalse
        exact absurd rfl hfalse

theorem convertLoop_skipped (env : CEnv) (hadd : ∀ e, env.addOk e = true) :
    ∀ (l : List String) (n : String), n ∈ l →
      (env.lookup n = Except.error () ∨ env.lookup n = Except.ok none) →
      CEvent.skipped n ∈ (convertLoop env l).1 := by
  intro l
  induction l with
  | nil => intro n h; simp at h
  | cons hd tl ih =>
    intro n hmem hfail
    rw [List.mem_cons] at hmem
    unfold convertLoop
    split
    · rw [consEv_fst]
      rcases hmem with rfl | hmem₂
      · exact List.mem_cons_self (CEvent.skipped n) _
      · exact List.mem_cons_of_mem _ (ih n hmem₂ hfail)
    · rw [consEv_fst]
      rcases hmem with rfl | hmem₂
      · exact List.mem_cons_self (CEvent.skipped n) _
      · exact List.mem_cons_of_mem _ (ih n hmem₂ hfail)
    · rename_i e he
      split
      · rw [consEv_fst]
        rcases hmem with rfl | hmem₂
        · rcases hfail with hf | hf
          · rw [he] at hf; exact Except.noConfusion hf
          · rw [he] at hf; simp at hf
        · exact List.mem_cons_of_mem _ (ih n hmem₂ hfail)
      · rename_i hfalse
        rw [hadd e] at hfalse
        exact absurd rfl hfalse

/-- C4: in `convert`, with the output writer accepting every entry, the
event trace is the per-entry loop's trace followed by exactly one final
`finalize` call (the loop itself never finalizes); the command succeeds
exactly when `finalize` succeeds (its failure is fatal); and every sorted
entry whose lookup fails — with an error or as indexed-but-missing — is
skipped (a `skipped` event) while the command still completes. -/
theorem convert_spec (env : CEnv) (hadd : ∀ e, env.addOk e = true) :
    (convert env).1 = (convertLoop env (sortNames env.names)).1 ++
      [CEvent.finalizeCall] ∧
    CEvent.finalizeCall ∉ (convertLoop env (sortNames env.names)).1 ∧
    (convert env).1.count CEvent.finalizeCall = 1 ∧
    ((convert env).2 = Except.ok () ↔ env.finalizeOk = true) ∧
    (∀ n, n ∈ sortNames env.names →
      (env.lookup n = Except.error () ∨ env.lookup n = Except.ok none) →
      CEvent.skipped n ∈ (convert env).1) := by
  have hok := convertLoop_ok env hadd (sortNames env.names)
  have hnf := convertLoop_no_finalize env (sortNames env.names)
  have hconv : convert env = ((convertLoop env (sortNames env.names)).1 ++
      [CEvent.finalizeCall],
      if env.finalizeOk then Except.ok () else Except.error ()) := by
    unfold convert
    rcases hsplit : convertLoop env (sortNames env.names) with ⟨evs, r⟩
    rw [hsplit] at hok
    simp only at hok
    subst hok
    rfl
  refine ⟨by rw [hconv], hnf, ?_, ?_, ?_⟩
  · rw [hconv]
    simp only [List.count_append, List.count_singleton]
    rw [List.count_eq_zero.mpr hnf]
    simp
  · rw [hconv]
    cases env.finalizeOk <;> simp
  · intro n hmem hfail
    rw [hconv]
    simp only [List.mem_append]
    exact Or.inl (convertLoop_skipped env hadd (sortNames env.names) n hmem hfail)

/-- Witness for C4: the one-entry conversion environment whose lookups
all fail still finalizes once and succeeds, with the entry skipped. -/
theorem convert_spec_witness :
    (convert cenv₀).2 = Except.ok () ∧
    CEvent.skipped "a" ∈ (convert cenv₀).1 ∧
    (convert cenv₀).1.count CEvent.finalizeCall = 1 := by
  have h := convert_spec cenv₀ (fun e => rfl)
  exact ⟨h.2.2.2.1.mpr rfl,
    h.2.2.2.2 "a" (by decide) (Or.inl rfl), h.2.2.1⟩

/-- C5: `repair` returns success for every terminal status of the
fail-safe conversion, surfacing the matching diagnostic, and the
diagnostic determines the status's class (no error, clean end of original
archive data, residual error), so the three classes are distinguished. -/
theorem repair_spec :
    (∀ status, repair (Except.ok status) = Except.ok (repairDiag status)) ∧
    repairDiag FailSafeReadError.NoError = RepairReport.silent ∧
    repairDiag FailSafeReadError.EndOfOriginalArchiveData =
      RepairReport.wholeRecovered ∧
    (∀ c, repairDiag (FailSafeReadError.OtherError c) =
      RepairReport.endedWith (FailSafeReadError.OtherError c)) ∧
    (∀ s t, repairDiag s = repairDiag t → statusClass s = statusClass t) := by
  refine ⟨fun _ => rfl, rfl, rfl, fun _ => rfl, ?_⟩
  intro s t h
  cases s <;> cases t <;> simp [repairDiag, statusClass] at h ⊢

/-- Witness for C5: a residual status and the clean-end status both leave
`repair` successful, with their distinguishing diagnostics. -/
theorem repair_spec_witness :
    repair (Except.ok (FailSafeReadError.OtherError 7)) =
      Except.ok (RepairReport.endedWith (FailSafeReadError.OtherError 7)) ∧
    repair (Except.ok FailSafeReadError.EndOfOriginalArchiveData) =
      Except.ok RepairReport.wholeRecovered ∧
    statusClass FailSafeReadError.NoError = statusClass FailSafeReadError.NoError := by
  refine ⟨?_, ?_, repair_spec.2.2.2.2 FailSafeReadError.NoError
    FailSafeReadError.NoError rfl⟩
  · rw [repair_spec.1 (FailSafeReadError.OtherError 7), repair_spec.2.2.2.1 7]
  · rw [repair_spec.1 FailSafeReadError.EndOfOriginalArchiveData, repair_spec.2.2.1]

theorem getCalls_nil : getCalls [] = [] := rfl

theorem getCalls_getFile (n : String) (evs : List XEvent) :
    getCalls (XEvent.getFileCall n :: evs) = n :: getCalls evs := rfl

theorem getCalls_skipped (n : String) (evs : List XEvent) :
    getCalls (XEvent.skippedLookup n :: evs) = getCalls evs := rfl

theorem getCalls_wrote (n : String) (p : List String) (evs : List XEvent) :
    getCalls (XEvent.wrote n p :: evs) = getCalls evs := rfl

theorem extractLoop_filtered (env : XEnv) (m : ExtractFileNameMatcher) :
    ∀ l : List String,
      (∀ n ∈ l, (create_file env.fsys env.out n).isOk = true) →
      (∀ n ∈ l, env.copyOk n = true) →
      getCalls (extractLoop env m l).1 =
        l.filter (fun n => match_file_name m n) ∧
      (extractLoop env m l).2 = Except.ok () ∧
      (∀ n, n ∈ l → match_file_name m n = true →
        (env.lookup n = Except.error () ∨ env.lookup n = Except.ok none) →
        XEvent.skippedLookup n ∈ (extractLoop env m l).1) := by
  intro l
  induction l with
  | nil =>
    intro _ _
    refine ⟨rfl, rfl, ?_⟩
    intro n h
    simp at h
  | cons hd tl ih =>
    intro h₁ h₂
    have hcf := h₁ hd (List.mem_cons_self hd tl)
    have hcopy := h₂ hd (List.mem_cons_self hd tl)
    have ih₂ := ih (fun n hn => h₁ n (List.mem_cons_of_mem hd hn))
      (fun n hn => h₂ n (List.mem_cons_of_mem hd hn))
    unfold extractLoop
    split
    · rename_i hmatch
      rw [List.filter_cons_of_pos hmatch]
      split
      · rename_i u he
        refine ⟨?_, ?_, ?_⟩
        · rw [consEv_fst, consEv_fst, getCalls_getFile, getCalls_skipped, ih₂.1]
        · rw [consEv_snd, consEv_snd]
          exact ih₂.2.1
        · intro n hmem hm hf
          rw [consEv_fst, consEv_fst]
          rw [List.mem_cons] at hmem
          rcases hmem with rfl | hmem₂
          · exact List.mem_cons_of_mem _ (List.mem_cons_self _ _)
          · exact List.mem_cons_of_mem _ (List.mem_cons_of_mem _
              (ih₂.2.2 n hmem₂ hm hf))
      · rename_i he
        refine ⟨?_, ?_, ?_⟩
        · rw [consEv_fst, consEv_fst, getCalls_getFile, getCalls_skipped, ih₂.1]
        · rw [consEv_snd, consEv_snd]
          exact ih₂.2.1
        · intro n hmem hm hf
          rw [consEv_fst, consEv_fst]
          rw [List.mem_cons] at hmem
          rcases hmem with rfl | hmem₂
          · exact List.mem_cons_of_mem _ (List.mem_cons_self _ _)
          · exact List.mem_cons_of_mem _ (List.mem_cons_of_mem _
              (ih₂.2.2 n hmem₂ hm hf))
      · rename_i e he
        split
        · rename_i u hcfe
          rw [hcfe] at hcf
          simp [Except.isOk, Except.toBool] at hcf
        · rename_i hcfe
          refine ⟨?_, ?_, ?_⟩
          · rw [consEv_fst, getCalls_getFile, ih₂.1]
          · rw [consEv_snd]
            exact ih₂.2.1
          · intro n hmem hm hf
            rw [consEv_fst]
            rw [List.mem_cons] at hmem
            rcases hmem with rfl | hmem₂
            · rcases hf with hf | hf
              · rw [he] at hf
                exact Except.noConfusion hf
              · rw [he] at hf
                simp at hf
            · exact List.mem_cons_of_mem _ (ih₂.2.2 n hmem₂ hm hf)
        · rename_i p hcfe
          refine ⟨?_, ?_, ?_⟩
          · rw [consEv_fst, consEv_fst, getCalls_getFile, getCalls_wrote, ih₂.1]
          · rw [consEv_snd, consEv_snd]
            exact ih₂.2.1
          · intro n hmem hm hf
            rw [consEv_fst, consEv_fst]
            rw [List.mem_cons] at hmem
            rcases hmem with rfl | hmem₂
            · rcases hf with hf | hf
              · rw [he] at hf
                exact Except.noConfusion hf
              · rw [he] at hf
                simp at hf
            · exact List.mem_cons_of_mem _ (List.mem_cons_of_mem _
                (ih₂.2.2 n hmem₂ hm hf))
    · rename_i hmatch
      rw [List.filter_cons_of_neg (by simpa using hmatch)]
      refine ⟨ih₂.1, ih₂.2.1, ?_⟩
      intro n hmem hm hf
      rw [List.mem_cons] at hmem
      rcases hmem with rfl | hmem₂
      · exact absurd hm hmatch
      · exact ih₂.2.2 n hmem₂ hm hf

/-- C6: with the `Anything` matcher, `extract` pre-computes destinations
into a name-to-writer mapping (`buildMapping`, built with `create_file`
over the sorted names) and performs exactly one `linear_extract` call with
that mapping; with any other matcher, the names looked up by `get_file`
are exactly the sorted entry names that pass the matcher, no
`linear_extract` call happens, failed lookups (error, or indexed but
missing) are skipped with a diagnostic, and the command still succeeds. -/
theorem extract_spec (env : XEnv) (m : ExtractFileNameMatcher) :
    (m = ExtractFileNameMatcher.Anything →
      ∀ mp, buildMapping env.fsys env.out (sortNames env.names) = Except.ok mp →
        extract m env = ([XEvent.linearCall mp], env.linResult)) ∧
    (m ≠ ExtractFileNameMatcher.Anything →
      (∀ n ∈ sortNames env.names, (create_file env.fsys env.out n).isOk = true) →
      (∀ n ∈ sortNames env.names, env.copyOk n = true) →
      getCalls (extract m env).1 =
        (sortNames env.names).filter (fun n => match_file_name m n) ∧
      (∀ mp, XEvent.linearCall mp ∉ (extract m env).1) ∧
      (extract m env).2 = Except.ok () ∧
      (∀ n, n ∈ sortNames env.names → match_file_name m n = true →
        (env.lookup n = Except.error () ∨ env.lookup n = Except.ok none) →
        XEvent.skippedLookup n ∈ (extract m env).1)) := by
  constructor
  · intro hm mp hb
    subst hm
    unfold extract
    rw [hb]
  · intro hm hcf hcopy
    cases m with
    | Anything => exact absurd rfl hm
    | Files fs =>
      obtain ⟨hg, hok, hskip⟩ :=
        extractLoop_filtered env (ExtractFileNameMatcher.Files fs)
          (sortNames env.names) hcf hcopy
      exact ⟨hg, fun mp =>
        extractLoop_no_linear env (ExtractFileNameMatcher.Files fs)
          (sortNames env.names) mp, hok, hskip⟩
    | GlobPatterns pats =>
      obtain ⟨hg, hok, hskip⟩ :=
        extractLoop_filtered env (ExtractFileNameMatcher.GlobPatterns pats)
          (sortNames env.names) hcf hcopy
      exact ⟨hg, fun mp =>
        extractLoop_no_linear env (ExtractFileNameMatcher.GlobPatterns pats)
          (sortNames env.names) mp, hok, hskip⟩

/-- Witness for C6: on the one-entry environment (whose lookup reports
the entry missing), the filtered branch with matcher `Files set-with-a`
calls `get_file` exactly on the matched name and skips it, and the
`Anything` branch performs the single `linear_extract` call with the
pre-computed mapping. -/
theorem extract_spec_witness :
    getCalls (extract (ExtractFileNameMatcher.Files ["a"]) xenv₁).1 =
      (sortNames xenv₁.names).filter
        (fun n => match_file_name (ExtractFileNameMatcher.Files ["a"]) n) ∧
    XEvent.skippedLookup "a" ∈
      (extract (ExtractFileNameMatcher.Files ["a"]) xenv₁).1 ∧
    (extract (ExtractFileNameMatcher.Files ["a"]) xenv₁).2 = Except.ok () ∧
    extract ExtractFileNameMatcher.Anything xenv₁ =
      ([XEvent.linearCall [("a", ["r", "a"])]], Except.ok ()) := by
  have h := (extract_spec xenv₁ (ExtractFileNameMatcher.Files ["a"])).2
    (fun hc => ExtractFileNameMatcher.noConfusion hc)
    (by decide) (fun n _ => rfl)
  have h₂ := (extract_spec xenv₁ ExtractFileNameMatcher.Anything).1 rfl
    [("a", ["r", "a"])] rfl
  exact ⟨h.1, h.2.2.2 "a" (by decide) (by decide) (Or.inr rfl), h.2.2.1, h₂⟩

theorem compilePatterns_eq_none (patternNew : String → Option (String → Bool)) :
    ∀ (l : List String) (p : String), p ∈ l → patternNew p = none →
      compilePatterns patternNew l = none := by
  intro l
  induction l with
  | nil => intro p h; simp at h
  | cons hd tl ih =>
    intro p hmem hbad
    rw [List.mem_cons] at hmem
    unfold compilePatterns
    rcases hmem with rfl | hmem₂
    · rw [hbad]
    · cases hh : patternNew hd with
      | none => rfl
      | some g => rw [ih p hmem₂ hbad]; rfl

/-- C7: in the `extract` command, an invalid glob pattern among the
supplied files (in glob mode) makes matcher construction fail, aborting
the whole command with an empty event trace — in particular before the
archive is opened and before the output directory is touched. -/
theorem extract_invalid_glob_failfast (files : List String) (p : String)
    (patternNew : String → Option (String → Bool)) (env : XEnv)
    (hp : p ∈ files) (hbad : patternNew p = none) :
    extractCmd (some files) true patternNew env = ([], Except.error ()) := by
  unfold extractCmd from_matches
  simp [compilePatterns_eq_none patternNew files p hp hbad]

/-- Witness for C7 at a single invalid pattern: the command fails with no
I/O event. -/
theorem extract_invalid_glob_failfast_witness :
    extractCmd (some ["ab["]) true (fun _ => none) xenv₁ =
      ([], Except.error ()) :=
  extract_invalid_glob_failfast ["ab["] "ab[" (fun _ => none) xenv₁
    (List.mem_cons_self "ab[" []) rfl

theorem sortNames_eq_of_perm {l₁ l₂ : List String} (h : l₁.Perm l₂) :
    sortNames l₁ = sortNames l₂ := by
  haveI ht : IsTotal String (fun a b => a ≤ b) := ⟨le_total⟩
  haveI htr : IsTrans String (fun a b => a ≤ b) := ⟨fun _ _ _ => le_trans⟩
  haveI ha : IsAntisymm String (fun a b => a ≤ b) := ⟨fun _ _ => le_antisymm⟩
  exact List.eq_of_perm_of_sorted
    ((List.perm_insertionSort _ l₁).trans (h.trans
      (List.perm_insertionSort _ l₂).symm))
    (List.sorted_insertionSort _ l₁)
    (List.sorted_insertionSort _ l₂)

/-- C8: the linear (`Anything`) extraction is deterministic over its
inputs: the produced file tree — destination paths with the bytes each
receives — and the whole `extract` run depend only on the set of entry
names (sorting makes any enumeration order of `list_files` irrelevant),
the archive contents, the output root and the filesystem; hence two runs
into an initially empty output root produce byte-identical trees. -/
theorem extract_anything_deterministic (fsys : FSModel) (out : List String)
    (content : String → List Nat) (names₁ names₂ : List String)
    (h : names₁.Perm names₂) :
    extractTree fsys out names₁ content = extractTree fsys out names₂ content ∧
    (∀ lookup copyOk linResult openOk outdirOk,
      extract ExtractFileNameMatcher.Anything
        ⟨fsys, out, names₁, lookup, copyOk, linResult, openOk, outdirOk⟩ =
      extract ExtractFileNameMatcher.Anything
        ⟨fsys, out, names₂, lookup, copyOk, linResult, openOk, outdirOk⟩) := by
  constructor
  · unfold extractTree
    rw [sortNames_eq_of_perm h]
  · intro lookup copyOk linResult openOk outdirOk
    unfold extract
    simp only
    rw [sortNames_eq_of_perm h]

/-- Witness for C8: two enumeration orders of the same two entries yield
the same extracted tree. -/
theorem extract_anything_deterministic_witness :
    extractTree fsA ["r"] ["b", "a"] (fun _ => [1, 2]) =
      extractTree fsA ["r"] ["a", "b"] (fun _ => [1, 2]) :=
  (extract_anything_deterministic fsA ["r"] (fun _ => [1, 2])
    ["b", "a"] ["a", "b"] (by decide)).1

/-- C9: in the glob branch of `cat`, an invalid pattern is reported with
a diagnostic event and skipped, after which the remaining patterns are
still processed exactly as before — and a run whose patterns are all
invalid still succeeds, so an invalid pattern never fails the command. -/
theorem cat_glob_invalid_skipped (patternNew : String → Option (String → Bool))
    (env : CatEnv) :
    (∀ p rest, patternNew p = none →
      catGlob patternNew env (p :: rest) =
        (CatEvent.invalidPattern p :: (catGlob patternNew env rest).1,
          (catGlob patternNew env rest).2)) ∧
    (∀ ps, (∀ p ∈ ps, patternNew p = none) →
      catGlob patternNew env ps =
        (ps.map CatEvent.invalidPattern, Except.ok ())) := by
  constructor
  · intro p rest hbad
    simp [catGlob, hbad, consEv]
  · intro ps
    induction ps with
    | nil => intro _; rfl
    | cons p rest ih =>
      intro h
      have hbad := h p (List.mem_cons_self p rest)
      simp [catGlob, hbad, consEv,
        ih (fun q hq => h q (List.mem_cons_of_mem p hq))]

/-- Witness for C9: two invalid patterns are both reported and skipped
and the command succeeds. -/
theorem cat_glob_invalid_skipped_witness :
    catGlob (fun _ => none) catenv₀ ["ab[", "cd["] =
      ([CatEvent.invalidPattern "ab[", CatEvent.invalidPattern "cd["],
        Except.ok ()) :=
  (cat_glob_invalid_skipped (fun _ => none) catenv₀).2 ["ab[", "cd["]
    (fun _ _ => rfl)
